import Mathlib

/-!
Shallow embedding of `Scripts/validate_flags.py` (CircleFlagsKit).

The script is a one-file validator for a directory of generated PNG
resources.  We embed its pure core: Python string helpers (`strip`,
`lower`, `splitlines`, `Path.stem` / `Path.suffix`), the two regular
expressions `ALPHA2_RE` and `DEFAULT_PNG_RE` with the CPython `re.match`
semantics (where the `$` anchor also matches just before one trailing
newline at the end of the string), the configuration builder, the
per-file scan loop, the fallback check, the allowlist check, and the
top-level `main` returning the accumulated warnings, errors and the
exit code.

The filesystem is modelled as the list of names of the regular files
directly inside the resources directory, plus flags for the existence
of the directory and of the allowlist file.  String helpers model the
ASCII fragment of the Python Unicode behaviour; every string handled by
the claims is ASCII.
-/

namespace ValidateFlags

/-! ## Character classes and Python string helpers -/

def isLowerAZ (c : Char) : Bool := ('a' ≤ c) && (c ≤ 'z')

def isDigit09 (c : Char) : Bool := ('0' ≤ c) && (c ≤ '9')

/-- ASCII whitespace stripped by Python `str.strip()`. -/
def pyIsSpace (c : Char) : Bool :=
  c == ' ' || c == '\t' || c == '\n' || c == '\x0d' || c == '\x0b' || c == '\x0c'

/-- Python `str.strip()` on the ASCII fragment. -/
def pyStrip (s : String) : String :=
  ⟨((s.data.dropWhile pyIsSpace).reverse.dropWhile pyIsSpace).reverse⟩

/-- Python `str.lower()` on the ASCII fragment. -/
def pyLower (s : String) : String :=
  ⟨s.data.map Char.toLower⟩

/-- Python `s.strip().lower()`, the normalization used by the script. -/
def pyStripLower (s : String) : String := pyLower (pyStrip s)

/-- Boolean list prefix test (used to classify report messages). -/
def strLeads : List Char → List Char → Bool
  | [], _ => true
  | _ :: _, [] => false
  | a :: l, b :: m => a == b && strLeads l m

def strStartsWith (p s : String) : Bool := strLeads p.data s.data

/-- Python `str.splitlines()` restricted to the terminators `\n`, `\r\n`
and `\r` (the ones that can occur in an ASCII allowlist file). -/
def pySplitlinesAux (acc : List Char) : List Char → List (List Char)
  | [] => if acc.isEmpty then [] else [acc.reverse]
  | '\x0d' :: '\n' :: rest => acc.reverse :: pySplitlinesAux [] rest
  | '\x0d' :: rest => acc.reverse :: pySplitlinesAux [] rest
  | '\n' :: rest => acc.reverse :: pySplitlinesAux [] rest
  | c :: rest => pySplitlinesAux (c :: acc) rest

def pySplitlines (s : String) : List String :=
  (pySplitlinesAux [] s.data).map (fun cs => ⟨cs⟩)

/-! ## `pathlib` name splitting

`PurePath.suffix` is the part of the final component from its last dot
`.` when that dot sits at an index `i` with `0 < i < len - 1`;
otherwise the suffix is empty.  `PurePath.stem` is the name without the
suffix. -/

def pyDotSplit (name : String) : Option Nat :=
  match name.data.reverse.findIdx? (fun c => c == '.') with
  | none => none
  | some j =>
      let i := name.data.length - 1 - j
      if 0 < i && i < name.data.length - 1 then some i else none

def pyStem (name : String) : String :=
  match pyDotSplit name with
  | some i => ⟨name.data.take i⟩
  | none => name

def pySuffix (name : String) : String :=
  match pyDotSplit name with
  | some i => ⟨name.data.drop i⟩
  | none => ""

/-- Normalized code of a file name: `p.stem` then `strip().lower()`. -/
def normOf (p : String) : String := pyStripLower (pyStem p)

/-! ## The two regular expressions

`ALPHA2_RE = ^[a-z]{2}$` and `DEFAULT_PNG_RE = ^[a-z0-9][a-z0-9\-]*$`,
used through `re.match` (anchored at the start; the pattern carries its
own `^`).  Without `re.MULTILINE`, the `$` anchor matches at the end of
the string or just before a newline that is the last character of the
string.  We embed a small backtracking matcher for anchored sequences
of character-class items ending in `$`. -/

inductive Item where
  | one (p : Char → Bool)
  | star (p : Char → Bool)

/-- The CPython `$` anchor (no MULTILINE): succeeds when the remaining
input is empty or is a single final newline. -/
def dollarAt : List Char → Bool
  | [] => true
  | [c] => c == '\n'
  | _ :: _ :: _ => false

/-- All splits `(cs.take k, cs.drop k)` of a list, used to enumerate the
backtracking choices of a starred class. -/
def splitsAt : List Char → List (List Char × List Char)
  | [] => [([], [])]
  | c :: cs => ([], c :: cs) :: (splitsAt cs).map (fun pr => (c :: pr.1, pr.2))

/-- Anchored matching of an item sequence followed by `$`. -/
def matchSeq : List Item → List Char → Bool
  | [], cs => dollarAt cs
  | Item.one p :: rest, cs =>
      match cs with
      | [] => false
      | c :: cs2 => p c && matchSeq rest cs2
  | Item.star p :: rest, cs =>
      (splitsAt cs).any (fun pr => pr.1.all p && matchSeq rest pr.2)

/-- `ALPHA2_RE`: the pattern `^[a-z]{2}$`. -/
def ALPHA2_RE : List Item := [Item.one isLowerAZ, Item.one isLowerAZ]

def isKeyStart (c : Char) : Bool := isLowerAZ c || isDigit09 c

def isKeyChar (c : Char) : Bool := isLowerAZ c || isDigit09 c || c == '-'

/-- `DEFAULT_PNG_RE`: the pattern `^[a-z0-9][a-z0-9\-]*$`. -/
def DEFAULT_PNG_RE : List Item := [Item.one isKeyStart, Item.star isKeyChar]

/-- `RE.match(s)` viewed as a boolean (the script only tests truthiness). -/
def reMatch (re : List Item) (s : String) : Bool := matchSeq re s.data

/-! ## Configuration and filesystem model -/

/-- Mirrors the frozen dataclass `ValidationConfig`; paths are strings,
the set of extra allowed codes is carried as a list with set
membership. -/
structure ValidationConfig where
  resources_dir : String
  allowlist_path : Option String
  require_fallback_code : Option String
  strict_alpha2 : Bool
  extra_allowed_codes : List String

/-- The parsed command line (after `argparse`). -/
structure Args where
  resources : String
  allowlist : Option String
  requireFallback : Option String
  strictAlpha2 : Bool
  allowExtra : List String

/-- The filesystem state visible to one run: the resources directory
(its existence, directory-ness, and the names of the regular files
directly inside it) and the optional allowlist file. -/
structure FS where
  resourcesExists : Bool
  resourcesIsDir : Bool
  entries : List String
  allowlistExists : Bool
  allowlistText : String

/-- Python truthiness of an optional string (`None` and `""` are falsy). -/
def pyTruthyStr : Option String → Bool
  | none => false
  | some s => !(s == "")

/-- Lines 124-139 of the script: build the `ValidationConfig` from the
parsed arguments.  `extra_allowed` collects the stripped, lowered,
non-blank `--allow-extra` values; a truthy `--require-fallback` value is
folded in, stripped and lowered. -/
def buildConfig (args : Args) : ValidationConfig :=
  let extra0 := (args.allowExtra.filter (fun c => !(pyStrip c == ""))).map pyStripLower
  let extra :=
    if pyTruthyStr args.requireFallback then
      extra0 ++ [pyStripLower (args.requireFallback.getD "")]
    else extra0
  { resources_dir := args.resources
    allowlist_path := args.allowlist
    require_fallback_code :=
      if pyTruthyStr args.requireFallback then
        some (pyStripLower (args.requireFallback.getD ""))
      else none
    strict_alpha2 := args.strictAlpha2
    extra_allowed_codes := extra }

/-! ## The validator functions -/

/-- `read_allowlist`: one code per line, strip + lower, skip blank lines
and `#` comments; the Python `set` is modelled by a deduplicated list. -/
def read_allowlist (text : String) : List String :=
  (((pySplitlines text).map pyStripLower).filter
    (fun line => !(line == "") && !(strStartsWith "#" line))).dedup

/-- Stable by-name sort (Python `sorted` on same-directory paths
compares their name strings by code points). -/
def strLtChars : List Char → List Char → Bool
  | [], [] => false
  | [], _ :: _ => true
  | _ :: _, [] => false
  | a :: l, b :: m => if a == b then strLtChars l m else decide (a < b)

def strLe (s t : String) : Bool := strLtChars s.data t.data || s == t

def insertByName (x : String) : List String → List String
  | [] => [x]
  | y :: ys => if strLe x y then x :: y :: ys else y :: insertByName x ys

def sortByName : List String → List String
  | [] => []
  | x :: xs => insertByName x (sortByName xs)

/-- `list_png_files`: the regular files in the directory whose suffix
lowercases to `.png`, sorted by name. -/
def list_png_files (entries : List String) : List String :=
  sortByName (entries.filter (fun p => pyLower (pySuffix p) == ".png"))

/-- `validate_filename`: extra allowed codes pass unconditionally, then
the mode-specific regular expression decides. -/
def validate_filename (code : String) (cfg : ValidationConfig) : Bool × Option String :=
  if code ∈ cfg.extra_allowed_codes then (true, none)
  else if cfg.strict_alpha2 then
    if reMatch ALPHA2_RE code then (true, none)
    else (false, some "not ISO alpha-2 (expected exactly 2 lowercase letters)")
  else
    if reMatch DEFAULT_PNG_RE code then (true, none)
    else (false, some "invalid key format (expected lowercase letters/digits/dash)")

/-! ## Report messages -/

def reasonText : Option String → String
  | some r => r
  | none => "None"

def invalidPfxStr : String := "Invalid filename: "

def invalidMsg (name : String) (reason : Option String) : String :=
  invalidPfxStr ++ (name ++ (" (" ++ (reasonText reason ++ ")")))

def dupPfxStr : String := "Duplicate code after normalization: "

def dupMsg (normalized first second : String) : String :=
  dupPfxStr ++ ("\u0027" ++ (normalized ++ ("\u0027\n - " ++ (first ++ ("\n - " ++ second)))))

def nonNormPfxStr : String := "Non-normalized filename: "

def nonNormMsg (name normalized : String) : String :=
  nonNormPfxStr ++ (name ++ (" (should be " ++ (normalized ++ ".png)")))

def dirMissingMsg (d : String) : String :=
  "Resources directory does not exist: " ++ d

def notDirMsg (d : String) : String :=
  "Resources path is not a directory: " ++ d

def noPngsMsg (d : String) : String :=
  "No PNG files found in: " ++ (d ++ "\nDid you run update_flags.sh to generate resources?")

def fbPfxStr : String := "Missing required fallback asset: "

def fallbackMsg (code : String) : String :=
  fbPfxStr ++ (code ++ ".png")

def almPfxStr : String := "Allowlist file does not exist: "

def allowlistMissingMsg (p : String) : String :=
  almPfxStr ++ p

def missingPfxStr : String := "Missing PNGs for allowlist codes:\n  - "

def missingMsg (missing : List String) : String :=
  missingPfxStr ++ String.intercalate "\n  - " missing

def extraPfxStr : String := "Extra PNGs found not listed in allowlist (may be OK):\n  - "

def extraMsg (extra : List String) : String :=
  extraPfxStr ++
    (String.intercalate "\n  - " (extra.take 80) ++
      (if extra.length ≤ 80 then ""
       else "\n  ...and " ++ (toString (extra.length - 80) ++ " more")))

/-! ## The scan loop (filenames, duplicates, normalization warnings) -/

/-- Association list standing for the dict `seen_normalized`
(insertion-ordered, first binding wins on lookup). -/
def lookupA : List (String × String) → String → Option String
  | [], _ => none
  | kv :: s, k => if kv.1 = k then some kv.2 else lookupA s k

/-- Dict assignment `seen[k] = v`: overwrite in place or append. -/
def insertA (s : List (String × String)) (k v : String) : List (String × String) :=
  if (lookupA s k).isSome then
    s.map (fun kv => if kv.1 = k then (k, v) else kv)
  else s ++ [(k, v)]

structure ScanState where
  errors : List String
  warnings : List String
  seen : List (String × String)

/-- One iteration of the `for p in pngs` loop (lines 168-188): validate
the normalized code, detect a duplicate or record the file as the first
producer of its code, and warn when the raw code is not normalized. -/
def scanStep (cfg : ValidationConfig) (st : ScanState) (p : String) : ScanState :=
  let code := pyStem p
  let normalized := pyStripLower code
  let v := validate_filename normalized cfg
  let st1 := if v.1 then st else { st with errors := st.errors ++ [invalidMsg p v.2] }
  let st2 :=
    match lookupA st1.seen normalized with
    | some q =>
        if q = p then { st1 with seen := insertA st1.seen normalized p }
        else { st1 with errors := st1.errors ++ [dupMsg normalized q p] }
    | none => { st1 with seen := insertA st1.seen normalized p }
  if code = normalized then st2
  else { st2 with warnings := st2.warnings ++ [nonNormMsg p normalized] }

def scanFiles (cfg : ValidationConfig) (pngs : List String) : ScanState :=
  pngs.foldl (scanStep cfg) ⟨[], [], []⟩

/-! ## Fallback and allowlist checks -/

/-- Lines 191-194: require `code.png` to exist in the resources
directory (the code names a direct child of the directory). -/
def fallbackErrs (cfg : ValidationConfig) (fs : FS) : List String :=
  if pyTruthyStr cfg.require_fallback_code then
    if fs.entries.contains (cfg.require_fallback_code.getD "" ++ ".png") then []
    else [fallbackMsg (cfg.require_fallback_code.getD "")]
  else []

def presentCodes (st : ScanState) : List String := st.seen.map (fun kv => kv.1)

def missingCodes (required present : List String) : List String :=
  sortByName (required.filter (fun c => !(present.contains c)))

def extraCodes (required present : List String) : List String :=
  sortByName (present.filter (fun c => !(required.contains c)))

/-- The sorted allowlist codes with no discovered file. -/
def missingOf (fs : FS) (st : ScanState) : List String :=
  missingCodes (read_allowlist fs.allowlistText) (presentCodes st)

/-- The sorted discovered codes absent from the allowlist. -/
def extraOf (fs : FS) (st : ScanState) : List String :=
  extraCodes (read_allowlist fs.allowlistText) (presentCodes st)

/-- Lines 197-210: the error part of the allowlist check. -/
def allowlistErrs (cfg : ValidationConfig) (fs : FS) (st : ScanState) : List String :=
  match cfg.allowlist_path with
  | none => []
  | some ap =>
      if fs.allowlistExists then
        if (missingOf fs st).isEmpty then [] else [missingMsg (missingOf fs st)]
      else [allowlistMissingMsg ap]

/-- Lines 212-219: the warning part of the allowlist check. -/
def allowlistWarns (cfg : ValidationConfig) (fs : FS) (st : ScanState) : List String :=
  match cfg.allowlist_path with
  | none => []
  | some _ =>
      if fs.allowlistExists then
        if (extraOf fs st).isEmpty then [] else [extraMsg (extraOf fs st)]
      else []

/-! ## The whole run -/

structure RunResult where
  warnings : List String
  errors : List String
  exitCode : Nat
deriving DecidableEq

/-- `main(argv)` after argument parsing: the three early hard stops,
then the scan, the fallback check and the allowlist check, and the
final exit code (`0` without errors, `2` otherwise). -/
def runMain (args : Args) (fs : FS) : RunResult :=
  let cfg := buildConfig args
  if !fs.resourcesExists then
    { warnings := [], errors := [dirMissingMsg cfg.resources_dir], exitCode := 2 }
  else if !fs.resourcesIsDir then
    { warnings := [], errors := [notDirMsg cfg.resources_dir], exitCode := 2 }
  else
    let pngs := list_png_files fs.entries
    if pngs.isEmpty then
      { warnings := [], errors := [noPngsMsg cfg.resources_dir], exitCode := 2 }
    else
      let st := scanFiles cfg pngs
      let errs := (st.errors ++ fallbackErrs cfg fs) ++ allowlistErrs cfg fs st
      let warns := st.warnings ++ allowlistWarns cfg fs st
      { warnings := warns, errors := errs, exitCode := if errs.isEmpty then 0 else 2 }


/-! ## Spec-form predicates for the naming rules

These definitions follow the words of the specification (not the
source); the claims compare them with the behaviour of
`validate_filename`. -/

/-- Modelled from the spec: a code that is exactly two lowercase ASCII
letters. -/
def specIsAlpha2 (s : String) : Bool :=
  match s.data with
  | [a, b] => isLowerAZ a && isLowerAZ b
  | _ => false

/-- Exactly two lowercase ASCII letters, optionally followed by one
trailing newline (the relaxation forced by the CPython dollar anchor). -/
def specIsAlpha2Nl (s : String) : Bool :=
  match s.data with
  | [a, b] => isLowerAZ a && isLowerAZ b
  | [a, b, c] => isLowerAZ a && isLowerAZ b && c == '\n'
  | _ => false

/-- Modelled from the spec: a lowercase letter or digit followed by any
number of lowercase letters, digits or hyphens. -/
def specLenientKey (s : String) : Bool :=
  match s.data with
  | [] => false
  | a :: t => isKeyStart a && t.all isKeyChar

/-- A run of characters satisfying `p` terminated by one final newline. -/
def bodyThenNL (p : Char → Bool) : List Char → Bool
  | [] => false
  | [c] => c == '\n'
  | c :: d :: rest => p c && bodyThenNL p (d :: rest)

/-- The lenient key shape, optionally with one trailing newline. -/
def specLenientKeyNl (s : String) : Bool :=
  match s.data with
  | [] => false
  | a :: t => isKeyStart a && (t.all isKeyChar || bodyThenNL isKeyChar t)

/-! ## Characterization of the two regular expressions -/

theorem any_and_const (l : List α) (b : Bool) (f : α → Bool) :
    (l.any fun x => b && f x) = (b && l.any f) := by
  induction l with
  | nil => simp
  | cons a l ih => simp [List.any_cons, ih, Bool.and_or_distrib_left]

theorem matchSeq_star_nil (p : Char → Bool) (rest : List Item) :
    matchSeq (Item.star p :: rest) [] = matchSeq rest [] := by
  simp [matchSeq, splitsAt]

theorem matchSeq_star_cons (p : Char → Bool) (rest : List Item) (c : Char) (cs : List Char) :
    matchSeq (Item.star p :: rest) (c :: cs) =
      (matchSeq rest (c :: cs) || (p c && matchSeq (Item.star p :: rest) cs)) := by
  conv_lhs => rw [matchSeq]
  conv_rhs => rw [matchSeq]
  simp [splitsAt, List.any_map, Function.comp_def, List.all_cons, Bool.and_assoc, any_and_const]

theorem star_char (p : Char → Bool) (t : List Char) :
    matchSeq [Item.star p] t = (t.all p || bodyThenNL p t) := by
  induction t with
  | nil => rfl
  | cons c cs ih =>
      rw [matchSeq_star_cons, ih]
      cases cs with
      | nil => simp [matchSeq, dollarAt, bodyThenNL, Bool.or_comm]
      | cons d ds =>
          simp [matchSeq, dollarAt, bodyThenNL, List.all_cons, Bool.and_or_distrib_left]

theorem alpha2_char (s : String) : reMatch ALPHA2_RE s = specIsAlpha2Nl s := by
  obtain ⟨cs⟩ := s
  show matchSeq ALPHA2_RE cs = specIsAlpha2Nl ⟨cs⟩
  cases cs with
  | nil => rfl
  | cons a t =>
      cases t with
      | nil => simp [ALPHA2_RE, matchSeq, dollarAt, specIsAlpha2Nl]
      | cons b t2 =>
          cases t2 with
          | nil => simp [ALPHA2_RE, matchSeq, dollarAt, specIsAlpha2Nl]
          | cons c t3 =>
              cases t3 with
              | nil => simp [ALPHA2_RE, matchSeq, dollarAt, specIsAlpha2Nl, Bool.and_assoc]
              | cons d t4 => simp [ALPHA2_RE, matchSeq, dollarAt, specIsAlpha2Nl]

theorem lenient_char (s : String) : reMatch DEFAULT_PNG_RE s = specLenientKeyNl s := by
  obtain ⟨cs⟩ := s
  show matchSeq DEFAULT_PNG_RE cs = specLenientKeyNl ⟨cs⟩
  cases cs with
  | nil => rfl
  | cons a t =>
      show matchSeq [Item.one isKeyStart, Item.star isKeyChar] (a :: t) = _
      rw [matchSeq]
      rw [star_char]
      simp [specLenientKeyNl]


/-! ## Claim C1: exit code -/

theorem runMain_exit_ite (args : Args) (fs : FS) :
    (runMain args fs).exitCode = if (runMain args fs).errors.isEmpty then 0 else 2 := by
  unfold runMain
  cases hE : fs.resourcesExists
  · simp
  · cases hD : fs.resourcesIsDir
    · simp
    · cases hP : (list_png_files fs.entries).isEmpty
      · simp [hP]
      · simp [hP]

/-- Claim C1: for every run, the exit code is 2 exactly when at least one
error message was accumulated and 0 otherwise; warnings do not enter the
decision. -/
theorem claim1_exit_code (args : Args) (fs : FS) :
    ((runMain args fs).exitCode = 2 ↔ (runMain args fs).errors ≠ []) ∧
    ((runMain args fs).exitCode = 0 ↔ (runMain args fs).errors = []) := by
  have h := runMain_exit_ite args fs
  cases hi : (runMain args fs).errors.isEmpty
  · have hne : (runMain args fs).errors ≠ [] := by
      intro hnil
      rw [hnil] at hi
      simp at hi
    rw [hi] at h
    simp only [Bool.false_eq_true, if_false] at h
    simp [h, hne]
  · have heq : (runMain args fs).errors = [] := by
      have h2 := hi
      rwa [List.isEmpty_iff] at h2
    rw [hi] at h
    simp only [if_true] at h
    simp [h, heq]

/-! ## Claim C2: early hard stops -/

/-- Claim C2: a missing directory, a non-directory path, or a directory
without PNG files each yields exactly one error, no warnings, exit code
2, and no output from the later checks. -/
theorem claim2_early_hard_stops (args : Args) (fs : FS) :
    (fs.resourcesExists = false →
        runMain args fs = ⟨[], [dirMissingMsg args.resources], 2⟩) ∧
    (fs.resourcesExists = true → fs.resourcesIsDir = false →
        runMain args fs = ⟨[], [notDirMsg args.resources], 2⟩) ∧
    (fs.resourcesExists = true → fs.resourcesIsDir = true →
        list_png_files fs.entries = [] →
        runMain args fs = ⟨[], [noPngsMsg args.resources], 2⟩) := by
  constructor
  · intro h1
    unfold runMain
    simp [h1, buildConfig]
  constructor
  · intro h1 h2
    unfold runMain
    simp [h1, h2, buildConfig]
  · intro h1 h2 h3
    unfold runMain
    simp [h1, h2, h3, buildConfig]

theorem claim2_witness :
    runMain ⟨"Res", none, none, false, []⟩ ⟨false, false, [], false, ""⟩ =
      ⟨[], [dirMissingMsg "Res"], 2⟩ :=
  (claim2_early_hard_stops ⟨"Res", none, none, false, []⟩ ⟨false, false, [], false, ""⟩).1 rfl

/-! ## Claim C3: strict mode -/

/-- Claim C3 counterexample: with strict mode on and an empty
extra-allowed set, the code consisting of two lowercase letters plus a
trailing newline passes validation although it is not exactly two
lowercase ASCII letters (the CPython dollar anchor also matches just
before a final newline). -/
theorem claim3_counterexample :
    validate_filename "ab\n" ⟨"R", none, none, true, []⟩ = (true, none) ∧
    specIsAlpha2 "ab\n" = false := by decide

/-- Claim C3 (amended): in strict mode, a code outside the extra-allowed
set passes exactly when it is two lowercase ASCII letters optionally
followed by one trailing newline; otherwise it fails with the alpha-2
reason. -/
theorem claim3_strict_amended (code : String) (cfg : ValidationConfig)
    (hs : cfg.strict_alpha2 = true) (hx : code ∉ cfg.extra_allowed_codes) :
    (validate_filename code cfg = (true, none) ↔ specIsAlpha2Nl code = true) ∧
    (specIsAlpha2Nl code = false →
      validate_filename code cfg =
        (false, some "not ISO alpha-2 (expected exactly 2 lowercase letters)")) := by
  unfold validate_filename
  rw [alpha2_char]
  simp only [hx, hs, if_true, if_false]
  cases hA : specIsAlpha2Nl code <;> simp [hA]

theorem claim3_witness :
    (validate_filename "us" ⟨"R", none, none, true, []⟩ = (true, none) ↔
      specIsAlpha2Nl "us" = true) ∧
    (specIsAlpha2Nl "us" = false →
      validate_filename "us" ⟨"R", none, none, true, []⟩ =
        (false, some "not ISO alpha-2 (expected exactly 2 lowercase letters)")) :=
  claim3_strict_amended "us" ⟨"R", none, none, true, []⟩ rfl (by decide)

/-! ## Claim C4: lenient mode -/

/-- Claim C4 counterexample: in lenient mode with an empty extra-allowed
set, a lowercase letter plus a trailing newline passes validation
although it does not have the documented lenient key shape. -/
theorem claim4_counterexample :
    validate_filename "a\n" ⟨"R", none, none, false, []⟩ = (true, none) ∧
    specLenientKey "a\n" = false := by decide

/-- Claim C4 (amended): in lenient mode, a code outside the extra-allowed
set passes exactly when it starts with a lowercase letter or digit
followed by lowercase letters, digits or hyphens, optionally with one
trailing newline; otherwise it fails with the invalid-key reason. -/
theorem claim4_lenient_amended (code : String) (cfg : ValidationConfig)
    (hs : cfg.strict_alpha2 = false) (hx : code ∉ cfg.extra_allowed_codes) :
    (validate_filename code cfg = (true, none) ↔ specLenientKeyNl code = true) ∧
    (specLenientKeyNl code = false →
      validate_filename code cfg =
        (false, some "invalid key format (expected lowercase letters/digits/dash)")) := by
  unfold validate_filename
  rw [lenient_char]
  simp only [hx, hs, if_true, if_false, Bool.false_eq_true]
  cases hA : specLenientKeyNl code <;> simp [hA]

theorem claim4_witness :
    (validate_filename "a-1" ⟨"R", none, none, false, []⟩ = (true, none) ↔
      specLenientKeyNl "a-1" = true) ∧
    (specLenientKeyNl "a-1" = false →
      validate_filename "a-1" ⟨"R", none, none, false, []⟩ =
        (false, some "invalid key format (expected lowercase letters/digits/dash)")) :=
  claim4_lenient_amended "a-1" ⟨"R", none, none, false, []⟩ rfl (by decide)

/-! ## Claim C5: extra-allowed bypass -/

/-- Claim C5: a code in the extra-allowed set passes validation
unconditionally, whatever the mode and the rest of the configuration. -/
theorem claim5_extra_allowed_bypass (code : String) (cfg : ValidationConfig)
    (h : code ∈ cfg.extra_allowed_codes) :
    validate_filename code cfg = (true, none) := by
  unfold validate_filename
  simp [h]

theorem claim5_witness :
    validate_filename "x: 1" ⟨"R", none, none, true, ["x: 1"]⟩ = (true, none) :=
  claim5_extra_allowed_bypass "x: 1" ⟨"R", none, none, true, ["x: 1"]⟩ (by decide)


/-! ## Decomposition of the scan loop

`scanStep` touches its three state components independently; the
following functions carve out the error, seen-map and warning
contributions of one file, and `errsAlong` / `seenAlong` / `warnsAlong`
iterate them along the file list. -/

def stepErrs (cfg : ValidationConfig) (seen : List (String × String)) (p : String) :
    List String :=
  (if (validate_filename (normOf p) cfg).1 then []
   else [invalidMsg p (validate_filename (normOf p) cfg).2]) ++
    (match lookupA seen (normOf p) with
     | some q => if q = p then [] else [dupMsg (normOf p) q p]
     | none => [])

def stepSeen (seen : List (String × String)) (p : String) : List (String × String) :=
  match lookupA seen (normOf p) with
  | some q => if q = p then insertA seen (normOf p) p else seen
  | none => insertA seen (normOf p) p

def stepWarns (p : String) : List String :=
  if pyStem p = normOf p then [] else [nonNormMsg p (normOf p)]

theorem scanStep_errors (cfg : ValidationConfig) (st : ScanState) (p : String) :
    (scanStep cfg st p).errors = st.errors ++ stepErrs cfg st.seen p := by
  unfold scanStep stepErrs
  simp only [normOf, pyStripLower]
  cases hv : (validate_filename (pyLower (pyStrip (pyStem p))) cfg).1 <;>
    simp only [hv, Bool.false_eq_true, if_false, if_true] <;>
    (repeat' split) <;>
    simp [List.append_assoc]

theorem scanStep_seen (cfg : ValidationConfig) (st : ScanState) (p : String) :
    (scanStep cfg st p).seen = stepSeen st.seen p := by
  unfold scanStep stepSeen
  simp only [normOf, pyStripLower]
  cases hv : (validate_filename (pyLower (pyStrip (pyStem p))) cfg).1 <;>
    simp only [hv, Bool.false_eq_true, if_false, if_true] <;>
    (repeat' split) <;>
    simp [List.append_assoc]

theorem scanStep_warnings (cfg : ValidationConfig) (st : ScanState) (p : String) :
    (scanStep cfg st p).warnings = st.warnings ++ stepWarns p := by
  unfold scanStep stepWarns
  simp only [normOf, pyStripLower]
  cases hv : (validate_filename (pyLower (pyStrip (pyStem p))) cfg).1 <;>
    simp only [hv, Bool.false_eq_true, if_false, if_true] <;>
    (repeat' split) <;>
    simp [List.append_assoc]

def errsAlong (cfg : ValidationConfig) (seen : List (String × String)) :
    List String → List String
  | [] => []
  | p :: rest => stepErrs cfg seen p ++ errsAlong cfg (stepSeen seen p) rest

def seenAlong (seen : List (String × String)) : List String → List (String × String)
  | [] => seen
  | p :: rest => seenAlong (stepSeen seen p) rest

def warnsAlong : List String → List String
  | [] => []
  | p :: rest => stepWarns p ++ warnsAlong rest

theorem foldl_scan_errors (cfg : ValidationConfig) (L : List String) :
    ∀ st : ScanState, (L.foldl (scanStep cfg) st).errors = st.errors ++ errsAlong cfg st.seen L := by
  induction L with
  | nil => intro st; simp [errsAlong]
  | cons p rest ih =>
      intro st
      simp only [List.foldl_cons, errsAlong]
      rw [ih, scanStep_errors, scanStep_seen, List.append_assoc]

theorem foldl_scan_seen (cfg : ValidationConfig) (L : List String) :
    ∀ st : ScanState, (L.foldl (scanStep cfg) st).seen = seenAlong st.seen L := by
  induction L with
  | nil => intro st; simp [seenAlong]
  | cons p rest ih =>
      intro st
      simp only [List.foldl_cons, seenAlong]
      rw [ih, scanStep_seen]

theorem foldl_scan_warnings (cfg : ValidationConfig) (L : List String) :
    ∀ st : ScanState, (L.foldl (scanStep cfg) st).warnings = st.warnings ++ warnsAlong L := by
  induction L with
  | nil => intro st; simp [warnsAlong]
  | cons p rest ih =>
      intro st
      simp only [List.foldl_cons, warnsAlong]
      rw [ih, scanStep_warnings, List.append_assoc]

theorem scanFiles_errors (cfg : ValidationConfig) (L : List String) :
    (scanFiles cfg L).errors = errsAlong cfg [] L := by
  unfold scanFiles
  rw [foldl_scan_errors]
  rfl

theorem scanFiles_seen (cfg : ValidationConfig) (L : List String) :
    (scanFiles cfg L).seen = seenAlong [] L := by
  unfold scanFiles
  rw [foldl_scan_seen]

theorem scanFiles_warnings (cfg : ValidationConfig) (L : List String) :
    (scanFiles cfg L).warnings = warnsAlong L := by
  unfold scanFiles
  rw [foldl_scan_warnings]
  rfl


/-! ## Association list lemmas for the seen map -/

def keysA (s : List (String × String)) : List String := s.map (fun kv => kv.1)

theorem lookupA_append (s t : List (String × String)) (m : String) :
    lookupA (s ++ t) m =
      match lookupA s m with
      | some v => some v
      | none => lookupA t m := by
  induction s with
  | nil => simp [lookupA]
  | cons kv s ih =>
      simp only [List.cons_append, lookupA]
      split
      · rfl
      · exact ih

theorem lookupA_map_overwrite (s : List (String × String)) (k v m : String) :
    lookupA (s.map (fun kv => if kv.1 = k then (k, v) else kv)) m =
      if m = k then (if (lookupA s k).isSome then some v else none)
      else lookupA s m := by
  induction s with
  | nil => simp [lookupA]
  | cons kv s ih =>
      simp only [List.map_cons, lookupA]
      by_cases hk : kv.1 = k
      · by_cases hm : m = k
        · subst hm
          subst hk
          simp [lookupA]
        · have h1 : ¬ kv.1 = m := fun h => hm (by rw [← h]; exact hk)
          have h2 : ¬ k = m := fun h => hm h.symm
          simp [hk, hm, h1, h2, ih, lookupA]
      · by_cases hm : kv.1 = m
        · have h2 : ¬ m = k := fun h => hk (by rw [hm]; exact h)
          simp [hk, hm, h2, lookupA]
        · simp [hk, hm, ih, lookupA]

theorem lookupA_insertA (s : List (String × String)) (k v m : String) :
    lookupA (insertA s k v) m = if m = k then some v else lookupA s m := by
  unfold insertA
  cases hs : (lookupA s k).isSome
  · simp only [hs, Bool.false_eq_true, if_false]
    rw [lookupA_append]
    by_cases hm : m = k
    · subst hm
      have hnone : lookupA s m = none := by
        cases h : lookupA s m
        · rfl
        · rw [h] at hs
          simp at hs
      simp [hnone, lookupA]
    · have h2 : ¬ k = m := fun h => hm h.symm
      cases h : lookupA s m <;> simp [h, hm, lookupA, h2]
  · simp only [hs, if_true]
    rw [lookupA_map_overwrite]
    by_cases hm : m = k <;> simp [hm, hs]

theorem lookupA_stepSeen (s : List (String × String)) (p m : String) :
    lookupA (stepSeen s p) m =
      if m = normOf p then
        (match lookupA s m with
         | some q => some q
         | none => some p)
      else lookupA s m := by
  unfold stepSeen
  cases hl : lookupA s (normOf p) with
  | none =>
      dsimp only
      rw [lookupA_insertA]
      by_cases hm : m = normOf p
      · rw [if_pos hm, if_pos hm, hm, hl]
      · rw [if_neg hm, if_neg hm]
  | some q =>
      dsimp only
      by_cases hq : q = p
      · rw [if_pos hq, lookupA_insertA]
        by_cases hm : m = normOf p
        · rw [if_pos hm, if_pos hm, hm, hl, hq]
        · rw [if_neg hm, if_neg hm]
      · rw [if_neg hq]
        by_cases hm : m = normOf p
        · rw [if_pos hm, hm, hl]
        · rw [if_neg hm]

/-- The first file of the list whose normalized code is `m`. -/
def findFirst (m : String) : List String → Option String
  | [] => none
  | p :: rest => if normOf p = m then some p else findFirst m rest

theorem findFirst_eq_head_filter (m : String) (L : List String) :
    findFirst m L = (L.filter (fun q => normOf q == m)).head? := by
  induction L with
  | nil => rfl
  | cons p rest ih =>
      by_cases h : normOf p = m
      · simp [findFirst, List.filter_cons, h]
      · simp [findFirst, List.filter_cons, h, ih]

theorem lookupA_seenAlong (L : List String) :
    ∀ (s : List (String × String)) (m : String),
      lookupA (seenAlong s L) m =
        match lookupA s m with
        | some q => some q
        | none => findFirst m L := by
  induction L with
  | nil =>
      intro s m
      cases h : lookupA s m <;> simp [seenAlong, findFirst, h]
  | cons p rest ih =>
      intro s m
      simp only [seenAlong]
      rw [ih, lookupA_stepSeen]
      by_cases hm : m = normOf p
      · have hpm : normOf p = m := hm.symm
        rw [if_pos hm]
        simp only [findFirst, if_pos hpm]
        cases h : lookupA s m <;> simp [h]
      · have hpm : ¬ normOf p = m := fun h => hm h.symm
        rw [if_neg hm]
        simp only [findFirst, if_neg hpm]

theorem lookupA_eq_none_iff (s : List (String × String)) (k : String) :
    lookupA s k = none ↔ k ∉ keysA s := by
  induction s with
  | nil => simp [lookupA, keysA]
  | cons kv s ih =>
      simp only [lookupA, keysA, List.map_cons, List.mem_cons]
      by_cases h : kv.1 = k
      · simp [h]
      · have h3 : k ≠ kv.1 := fun hh => h hh.symm
        simp [h, h3, ih, keysA]

theorem keysA_insertA_isSome (s : List (String × String)) (k v : String)
    (h : (lookupA s k).isSome = true) : keysA (insertA s k v) = keysA s := by
  unfold insertA
  rw [if_pos h]
  unfold keysA
  rw [List.map_map]
  apply List.map_congr_left
  intro kv _
  simp only [Function.comp_apply]
  split
  · next h2 => exact h2.symm
  · rfl

theorem keysA_insertA_none (s : List (String × String)) (k v : String)
    (h : lookupA s k = none) : keysA (insertA s k v) = keysA s ++ [k] := by
  unfold insertA
  rw [if_neg (by simp [h])]
  unfold keysA
  rw [List.map_append]
  rfl

theorem nodup_keysA_stepSeen (s : List (String × String)) (p : String)
    (h : (keysA s).Nodup) : (keysA (stepSeen s p)).Nodup := by
  unfold stepSeen
  cases hl : lookupA s (normOf p) with
  | none =>
      dsimp only
      rw [keysA_insertA_none _ _ _ hl]
      have hk : normOf p ∉ keysA s := (lookupA_eq_none_iff s (normOf p)).mp hl
      simp [List.nodup_append, h, hk]
  | some q =>
      dsimp only
      split
      · rw [keysA_insertA_isSome]
        · exact h
        · rw [hl]; rfl
      · exact h

theorem nodup_keysA_seenAlong (L : List String) :
    ∀ s : List (String × String), (keysA s).Nodup → (keysA (seenAlong s L)).Nodup := by
  induction L with
  | nil => intro s h; exact h
  | cons p rest ih =>
      intro s h
      exact ih _ (nodup_keysA_stepSeen s p h)

theorem mem_keysA_of_isSome (s : List (String × String)) (m : String)
    (h : (lookupA s m).isSome = true) : m ∈ keysA s := by
  by_contra h2
  rw [← lookupA_eq_none_iff] at h2
  rw [h2] at h
  simp at h

/-! ## Prefix classification of report messages -/

def hasEarlyMismatch : List Char → List Char → Bool
  | _, [] => false
  | [], _ :: _ => false
  | a :: l, b :: m => !(a == b) || hasEarlyMismatch l m

theorem strLeads_append_self (l r : List Char) : strLeads l (l ++ r) = true := by
  induction l with
  | nil => rfl
  | cons a l ih => simp [strLeads, ih]

theorem strLeads_mismatch (p : List Char) :
    ∀ q r : List Char, hasEarlyMismatch p q = true → strLeads p (q ++ r) = false := by
  induction p with
  | nil =>
      intro q r h
      cases q <;> simp [hasEarlyMismatch] at h
  | cons a l ih =>
      intro q r h
      cases q with
      | nil => simp [hasEarlyMismatch] at h
      | cons b m =>
          simp only [hasEarlyMismatch, Bool.or_eq_true, Bool.not_eq_eq_eq_not, Bool.not_true] at h
          simp only [List.cons_append, strLeads]
          rcases h with h | h
          · simp [h]
          · simp [List.append_eq, ih m r h]

theorem strStartsWith_self_append (p r : String) : strStartsWith p (p ++ r) = true := by
  unfold strStartsWith
  rw [String.data_append]
  exact strLeads_append_self _ _

theorem strStartsWith_mismatch (p q r : String)
    (h : hasEarlyMismatch p.data q.data = true) :
    strStartsWith p (q ++ r) = false := by
  unfold strStartsWith
  rw [String.data_append]
  exact strLeads_mismatch _ _ _ h

/-! ## Sorting lemmas -/

theorem insertByName_perm (x : String) (l : List String) : List.Perm (insertByName x l) (x :: l) := by
  induction l with
  | nil => exact List.Perm.refl _
  | cons y ys ih =>
      unfold insertByName
      split
      · exact List.Perm.refl _
      · exact (ih.cons y).trans (List.Perm.swap x y ys)

theorem sortByName_perm (l : List String) : List.Perm (sortByName l) l := by
  induction l with
  | nil => exact List.Perm.refl _
  | cons x xs ih =>
      unfold sortByName
      exact (insertByName_perm x (sortByName xs)).trans (ih.cons x)

theorem mem_sortByName (x : String) (l : List String) : x ∈ sortByName l ↔ x ∈ l :=
  (sortByName_perm l).mem_iff

theorem nodup_sortByName (l : List String) (h : l.Nodup) : (sortByName l).Nodup :=
  ((sortByName_perm l).nodup_iff).mpr h

theorem find?_eq_head_filter (p : String → Bool) (l : List String) :
    l.find? p = (l.filter p).head? := by
  induction l with
  | nil => rfl
  | cons a l ih =>
      by_cases h : p a
      · rw [List.find?_cons_of_pos _ h, List.filter_cons_of_pos h]
        rfl
      · rw [List.find?_cons_of_neg _ (by simp [h]), List.filter_cons_of_neg (by simp [h])]
        exact ih

/-! ## The final branch of a run -/

theorem runMain_final (args : Args) (fs : FS)
    (hE : fs.resourcesExists = true) (hD : fs.resourcesIsDir = true)
    (hP : (list_png_files fs.entries).isEmpty = false) :
    runMain args fs =
      { warnings :=
          (scanFiles (buildConfig args) (list_png_files fs.entries)).warnings ++
            allowlistWarns (buildConfig args) fs
              (scanFiles (buildConfig args) (list_png_files fs.entries)),
        errors :=
          ((scanFiles (buildConfig args) (list_png_files fs.entries)).errors ++
              fallbackErrs (buildConfig args) fs) ++
            allowlistErrs (buildConfig args) fs
              (scanFiles (buildConfig args) (list_png_files fs.entries)),
        exitCode :=
          if (((scanFiles (buildConfig args) (list_png_files fs.entries)).errors ++
                  fallbackErrs (buildConfig args) fs) ++
                allowlistErrs (buildConfig args) fs
                  (scanFiles (buildConfig args) (list_png_files fs.entries))).isEmpty
          then 0 else 2 } := by
  unfold runMain
  simp [hE, hD, hP]


/-! ## Message classification lemmas

Each error message starts with a fixed literal; two messages of
different kinds never start with each other's literal. -/

theorem sw_dupMsg (n x y : String) :
    strStartsWith dupPfxStr (dupMsg n x y) = true := by
  unfold dupMsg
  exact strStartsWith_self_append _ _

theorem nsw_invalidMsg (pfx q : String) (r : Option String)
    (h : hasEarlyMismatch pfx.data invalidPfxStr.data = true) :
    strStartsWith pfx (invalidMsg q r) = false := by
  unfold invalidMsg
  exact strStartsWith_mismatch _ _ _ h

theorem nsw_dupMsg (pfx n x y : String)
    (h : hasEarlyMismatch pfx.data dupPfxStr.data = true) :
    strStartsWith pfx (dupMsg n x y) = false := by
  unfold dupMsg
  exact strStartsWith_mismatch _ _ _ h

theorem nsw_fallbackMsg (pfx c : String)
    (h : hasEarlyMismatch pfx.data fbPfxStr.data = true) :
    strStartsWith pfx (fallbackMsg c) = false := by
  unfold fallbackMsg
  exact strStartsWith_mismatch _ _ _ h

theorem nsw_allowlistMissingMsg (pfx q : String)
    (h : hasEarlyMismatch pfx.data almPfxStr.data = true) :
    strStartsWith pfx (allowlistMissingMsg q) = false := by
  unfold allowlistMissingMsg
  exact strStartsWith_mismatch _ _ _ h

theorem nsw_missingMsg (pfx : String) (l : List String)
    (h : hasEarlyMismatch pfx.data missingPfxStr.data = true) :
    strStartsWith pfx (missingMsg l) = false := by
  unfold missingMsg
  exact strStartsWith_mismatch _ _ _ h

/-! ## Duplicate-error bookkeeping -/

/-- The duplicate errors emitted along the scan, in emission order. -/
def dupsAlong (seen : List (String × String)) : List String → List String
  | [] => []
  | p :: rest =>
      (match lookupA seen (normOf p) with
       | some q => if q = p then [] else [dupMsg (normOf p) q p]
       | none => []) ++ dupsAlong (stepSeen seen p) rest

theorem filter_dup_stepErrs (cfg : ValidationConfig) (seen : List (String × String))
    (p : String) :
    (stepErrs cfg seen p).filter (fun e => strStartsWith dupPfxStr e) =
      (match lookupA seen (normOf p) with
       | some q => if q = p then [] else [dupMsg (normOf p) q p]
       | none => []) := by
  unfold stepErrs
  rw [List.filter_append]
  have h1 : (if (validate_filename (normOf p) cfg).1 then ([] : List String)
      else [invalidMsg p (validate_filename (normOf p) cfg).2]).filter
        (fun e => strStartsWith dupPfxStr e) = [] := by
    split
    · rfl
    · simp [nsw_invalidMsg dupPfxStr p ((validate_filename (normOf p) cfg).2) (by decide)]
  rw [h1, List.nil_append]
  cases hl : lookupA seen (normOf p) with
  | none => rfl
  | some q =>
      dsimp only
      split
      · rfl
      · simp [sw_dupMsg]

theorem filter_dup_errsAlong (cfg : ValidationConfig) (L : List String) :
    ∀ seen : List (String × String),
      (errsAlong cfg seen L).filter (fun e => strStartsWith dupPfxStr e) =
        dupsAlong seen L := by
  induction L with
  | nil => intro seen; rfl
  | cons p rest ih =>
      intro seen
      simp only [errsAlong, dupsAlong, List.filter_append]
      rw [filter_dup_stepErrs, ih]

theorem dupsAlong_eq_nil (L : List String) :
    ∀ s : List (String × String),
      (∀ p ∈ L, lookupA s (normOf p) = none) →
      (∀ p ∈ L, (L.filter (fun q => normOf q == normOf p)).length ≤ 1) →
      dupsAlong s L = [] := by
  induction L with
  | nil => intro s _ _; rfl
  | cons p rest ih =>
      intro s hlook hone
      simp only [dupsAlong]
      rw [hlook p (List.mem_cons_self p rest)]
      dsimp only
      rw [List.nil_append]
      have hrest : rest.filter (fun q2 => normOf q2 == normOf p) = [] := by
        have h1 := hone p (List.mem_cons_self p rest)
        rw [List.filter_cons_of_pos (by simp)] at h1
        cases hf : rest.filter (fun q2 => normOf q2 == normOf p)
        · rfl
        · rw [hf] at h1
          simp at h1
      apply ih
      · intro q hq
        rw [lookupA_stepSeen]
        by_cases hm : normOf q = normOf p
        · exfalso
          have hq2 : q ∈ rest.filter (fun q2 => normOf q2 == normOf p) :=
            List.mem_filter.mpr ⟨hq, by simp [hm]⟩
          rw [hrest] at hq2
          simp at hq2
        · rw [if_neg hm]
          exact hlook q (List.mem_cons_of_mem p hq)
      · intro q hq
        have hle : (rest.filter (fun q2 => normOf q2 == normOf q)).length ≤
            ((p :: rest).filter (fun q2 => normOf q2 == normOf q)).length := by
          rw [List.filter_cons]
          split
          · simp
          · exact Nat.le_refl _
        exact Nat.le_trans hle (hone q (List.mem_cons_of_mem p hq))

theorem dupsAlong_one (n a b : String) (hab : a ≠ b) :
    ∀ (L : List String) (s : List (String × String)),
      (∀ p ∈ L, normOf p ≠ n → lookupA s (normOf p) = none) →
      (∀ p ∈ L, normOf p ≠ n → (L.filter (fun q => normOf q == normOf p)).length ≤ 1) →
      lookupA s n = some a →
      (∀ p ∈ L, a ≠ p) →
      L.filter (fun q => normOf q == n) = [b] →
      dupsAlong s L = [dupMsg n a b] := by
  intro L
  induction L with
  | nil =>
      intro s _ _ _ _ hfn
      simp at hfn
  | cons p rest ih =>
      intro s h2 hone hla hap hfn
      by_cases hp : normOf p = n
      · rw [List.filter_cons_of_pos (by simp [hp])] at hfn
        rw [List.cons.injEq] at hfn
        obtain ⟨hpb, hrest⟩ := hfn
        subst hpb
        simp only [dupsAlong]
        rw [hp, hla]
        dsimp only
        rw [if_neg hab]
        have hss : stepSeen s p = s := by
          unfold stepSeen
          rw [hp, hla]
          dsimp only
          rw [if_neg hab]
        rw [hss]
        have hnil : dupsAlong s rest = [] := by
          apply dupsAlong_eq_nil
          · intro q hq
            by_cases hqn : normOf q = n
            · exfalso
              have hq2 : q ∈ rest.filter (fun q2 => normOf q2 == n) :=
                List.mem_filter.mpr ⟨hq, by simp [hqn]⟩
              rw [hrest] at hq2
              simp at hq2
            · exact h2 q (List.mem_cons_of_mem p hq) hqn
          · intro q hq
            by_cases hqn : normOf q = n
            · simp only [hqn, hrest]
              exact Nat.zero_le 1
            · have hle : (rest.filter (fun q2 => normOf q2 == normOf q)).length ≤
                  ((p :: rest).filter (fun q2 => normOf q2 == normOf q)).length := by
                rw [List.filter_cons]
                split
                · simp
                · exact Nat.le_refl _
              exact Nat.le_trans hle (hone q (List.mem_cons_of_mem p hq) hqn)
        rw [hnil, List.append_nil]
      · rw [List.filter_cons_of_neg (by simp [hp])] at hfn
        simp only [dupsAlong]
        rw [h2 p (List.mem_cons_self p rest) hp]
        dsimp only
        rw [List.nil_append]
        have hrestp : rest.filter (fun q2 => normOf q2 == normOf p) = [] := by
          have h1 := hone p (List.mem_cons_self p rest) hp
          rw [List.filter_cons_of_pos (by simp)] at h1
          cases hf : rest.filter (fun q2 => normOf q2 == normOf p)
          · rfl
          · rw [hf] at h1
            simp at h1
        refine ih (stepSeen s p) ?_ ?_ ?_ ?_ hfn
        · intro q hq hqn
          rw [lookupA_stepSeen]
          by_cases hm : normOf q = normOf p
          · exfalso
            have hq2 : q ∈ rest.filter (fun q2 => normOf q2 == normOf p) :=
              List.mem_filter.mpr ⟨hq, by simp [hm]⟩
            rw [hrestp] at hq2
            simp at hq2
          · rw [if_neg hm]
            exact h2 q (List.mem_cons_of_mem p hq) hqn
        · intro q hq hqn
          have hle : (rest.filter (fun q2 => normOf q2 == normOf q)).length ≤
              ((p :: rest).filter (fun q2 => normOf q2 == normOf q)).length := by
            rw [List.filter_cons]
            split
            · simp
            · exact Nat.le_refl _
          exact Nat.le_trans hle (hone q (List.mem_cons_of_mem p hq) hqn)
        · rw [lookupA_stepSeen]
          rw [if_neg (fun h => hp h.symm)]
          exact hla
        · intro q hq
          exact hap q (List.mem_cons_of_mem p hq)

theorem dupsAlong_two (n a b : String) (hab : a ≠ b) :
    ∀ (L : List String) (s : List (String × String)),
      L.Nodup →
      (∀ p ∈ L, normOf p ≠ n → lookupA s (normOf p) = none) →
      (∀ p ∈ L, normOf p ≠ n → (L.filter (fun q => normOf q == normOf p)).length ≤ 1) →
      lookupA s n = none →
      L.filter (fun q => normOf q == n) = [a, b] →
      dupsAlong s L = [dupMsg n a b] := by
  intro L
  induction L with
  | nil =>
      intro s _ _ _ _ hfn
      simp at hfn
  | cons p rest ih =>
      intro s hnd h2 hone hln hfn
      by_cases hp : normOf p = n
      · rw [List.filter_cons_of_pos (by simp [hp])] at hfn
        rw [List.cons.injEq] at hfn
        obtain ⟨hpa, hrest⟩ := hfn
        subst hpa
        simp only [dupsAlong]
        rw [hp, hln]
        dsimp only
        rw [List.nil_append]
        have hstep : stepSeen s p = insertA s (normOf p) p := by
          unfold stepSeen
          rw [hp, hln]
        apply dupsAlong_one n p b hab rest (stepSeen s p)
        · intro q hq hqn
          rw [hstep, lookupA_insertA]
          rw [if_neg (fun h => hqn (by rw [h, hp]))]
          exact h2 q (List.mem_cons_of_mem p hq) hqn
        · intro q hq hqn
          have hle : (rest.filter (fun q2 => normOf q2 == normOf q)).length ≤
              ((p :: rest).filter (fun q2 => normOf q2 == normOf q)).length := by
            rw [List.filter_cons]
            split
            · simp
            · exact Nat.le_refl _
          exact Nat.le_trans hle (hone q (List.mem_cons_of_mem p hq) hqn)
        · rw [hstep, lookupA_insertA, if_pos hp.symm]
        · intro q hq hq2
          rw [← hq2] at hq
          exact (List.nodup_cons.mp hnd).1 hq
        · exact hrest
      · rw [List.filter_cons_of_neg (by simp [hp])] at hfn
        simp only [dupsAlong]
        rw [h2 p (List.mem_cons_self p rest) hp]
        dsimp only
        rw [List.nil_append]
        have hrestp : rest.filter (fun q2 => normOf q2 == normOf p) = [] := by
          have h1 := hone p (List.mem_cons_self p rest) hp
          rw [List.filter_cons_of_pos (by simp)] at h1
          cases hf : rest.filter (fun q2 => normOf q2 == normOf p)
          · rfl
          · rw [hf] at h1
            simp at h1
        refine ih (stepSeen s p) (List.nodup_cons.mp hnd).2 ?_ ?_ ?_ hfn
        · intro q hq hqn
          rw [lookupA_stepSeen]
          by_cases hm : normOf q = normOf p
          · exfalso
            have hq2 : q ∈ rest.filter (fun q2 => normOf q2 == normOf p) :=
              List.mem_filter.mpr ⟨hq, by simp [hm]⟩
            rw [hrestp] at hq2
            simp at hq2
          · rw [if_neg hm]
            exact h2 q (List.mem_cons_of_mem p hq) hqn
        · intro q hq hqn
          have hle : (rest.filter (fun q2 => normOf q2 == normOf q)).length ≤
              ((p :: rest).filter (fun q2 => normOf q2 == normOf q)).length := by
            rw [List.filter_cons]
            split
            · simp
            · exact Nat.le_refl _
          exact Nat.le_trans hle (hone q (List.mem_cons_of_mem p hq) hqn)
        · rw [lookupA_stepSeen]
          rw [if_neg (fun h => hp h.symm)]
          exact hln


/-! ## Claim C6: duplicate detection -/

theorem filter_dup_fallbackErrs (cfg : ValidationConfig) (fs : FS) :
    (fallbackErrs cfg fs).filter (fun e => strStartsWith dupPfxStr e) = [] := by
  unfold fallbackErrs
  split
  · split
    · rfl
    · simp [nsw_fallbackMsg dupPfxStr (cfg.require_fallback_code.getD "") (by decide)]
  · rfl

theorem filter_dup_allowlistErrs (cfg : ValidationConfig) (fs : FS) (st : ScanState) :
    (allowlistErrs cfg fs st).filter (fun e => strStartsWith dupPfxStr e) = [] := by
  unfold allowlistErrs
  split
  · rfl
  · split
    · split
      · rfl
      · simp [nsw_missingMsg dupPfxStr (missingOf fs st) (by decide)]
    · rename_i x ap heq hex
      simp [nsw_allowlistMissingMsg dupPfxStr ap (by decide)]

/-- Claim C6: when exactly the two distinct files `a` and `b` (in
scan order) share the normalized code `n` and no other code collides,
the run records exactly one duplicate error, and it names both files;
the normalized-code map retains the first file `a`. -/
theorem claim6_duplicate_detection (args : Args) (fs : FS) (n a b : String)
    (hE : fs.resourcesExists = true) (hD : fs.resourcesIsDir = true)
    (hnd : fs.entries.Nodup)
    (hcol : (list_png_files fs.entries).filter (fun q => normOf q == n) = [a, b])
    (huniq : ∀ m ∈ (list_png_files fs.entries).map normOf, m ≠ n →
        ((list_png_files fs.entries).filter (fun q => normOf q == m)).length ≤ 1) :
    (runMain args fs).errors.filter (fun e => strStartsWith dupPfxStr e) = [dupMsg n a b] ∧
    lookupA (scanFiles (buildConfig args) (list_png_files fs.entries)).seen n = some a := by
  have hndL : (list_png_files fs.entries).Nodup := nodup_sortByName _ (hnd.filter _)
  have hab : a ≠ b := by
    have h1 : ((list_png_files fs.entries).filter (fun q => normOf q == n)).Nodup :=
      hndL.filter _
    rw [hcol] at h1
    simpa using (List.nodup_cons.mp h1).1
  have hPne : list_png_files fs.entries ≠ [] := by
    intro h
    rw [h] at hcol
    simp at hcol
  have hP : (list_png_files fs.entries).isEmpty = false := by
    cases h : (list_png_files fs.entries).isEmpty
    · rfl
    · exact absurd (List.isEmpty_iff.mp h) hPne
  constructor
  · rw [runMain_final args fs hE hD hP]
    dsimp only
    rw [List.filter_append, List.filter_append]
    rw [scanFiles_errors, filter_dup_errsAlong]
    rw [filter_dup_fallbackErrs, filter_dup_allowlistErrs]
    rw [List.append_nil, List.append_nil]
    apply dupsAlong_two n a b hab (list_png_files fs.entries) [] hndL
    · intro p _ _
      rfl
    · intro p hp hpn
      exact huniq (normOf p) (List.mem_map_of_mem normOf hp) hpn
    · rfl
    · exact hcol
  · rw [scanFiles_seen, lookupA_seenAlong]
    dsimp only [lookupA]
    rw [findFirst_eq_head_filter, hcol]
    rfl

theorem claim6_witness :
    (runMain ⟨"R", none, none, false, []⟩
          ⟨true, true, ["US.png", "us.png"], false, ""⟩).errors.filter
        (fun e => strStartsWith dupPfxStr e) = [dupMsg "us" "US.png" "us.png"] ∧
    lookupA (scanFiles (buildConfig ⟨"R", none, none, false, []⟩)
        (list_png_files ["US.png", "us.png"])).seen "us" = some "US.png" :=
  claim6_duplicate_detection ⟨"R", none, none, false, []⟩
    ⟨true, true, ["US.png", "us.png"], false, ""⟩ "us" "US.png" "us.png"
    rfl rfl (by decide) (by decide) (by decide)


/-! ## Shape of the accumulated messages -/

theorem mem_warnsAlong (L : List String) (p : String)
    (hp : p ∈ L) (hraw : pyStem p ≠ normOf p) :
    nonNormMsg p (normOf p) ∈ warnsAlong L := by
  induction L with
  | nil => simp at hp
  | cons q rest ih =>
      simp only [warnsAlong, List.mem_append]
      rcases List.mem_cons.mp hp with h | h
      · subst h
        left
        simp [stepWarns, hraw]
      · exact Or.inr (ih h)

theorem errsAlong_shape (cfg : ValidationConfig) (L : List String) :
    ∀ (seen : List (String × String)) (e : String), e ∈ errsAlong cfg seen L →
      (∃ q r, e = invalidMsg q r) ∨ (∃ m x y, e = dupMsg m x y) := by
  induction L with
  | nil =>
      intro seen e he
      simp [errsAlong] at he
  | cons p rest ih =>
      intro seen e he
      simp only [errsAlong, List.mem_append] at he
      rcases he with he | he
      · unfold stepErrs at he
        simp only [List.mem_append] at he
        rcases he with he | he
        · split at he
          · simp at he
          · simp only [List.mem_singleton] at he
            exact Or.inl ⟨p, _, he⟩
        · split at he
          · split at he
            · simp at he
            · simp only [List.mem_singleton] at he
              exact Or.inr ⟨_, _, _, he⟩
          · simp at he
      · exact ih _ _ he

theorem mem_errsAlong_invalid (cfg : ValidationConfig) (L : List String) (p : String) :
    ∀ seen : List (String × String), p ∈ L →
      (validate_filename (normOf p) cfg).1 = false →
      invalidMsg p (validate_filename (normOf p) cfg).2 ∈ errsAlong cfg seen L := by
  induction L with
  | nil =>
      intro seen h
      simp at h
  | cons q rest ih =>
      intro seen hmem hv
      simp only [errsAlong, List.mem_append]
      rcases List.mem_cons.mp hmem with h | h
      · subst h
        left
        simp [stepErrs, hv]
      · exact Or.inr (ih _ h hv)

theorem errsAlong_dup_of_valid (cfg : ValidationConfig) (L : List String) :
    ∀ (seen : List (String × String)) (e : String),
      (∀ q ∈ L, (validate_filename (normOf q) cfg).1 = true) →
      e ∈ errsAlong cfg seen L → ∃ m x y, e = dupMsg m x y := by
  induction L with
  | nil =>
      intro seen e _ he
      simp [errsAlong] at he
  | cons p rest ih =>
      intro seen e hall he
      simp only [errsAlong, List.mem_append] at he
      rcases he with he | he
      · unfold stepErrs at he
        simp only [hall p (List.mem_cons_self p rest), if_true, List.nil_append] at he
        split at he
        · split at he
          · simp at he
          · simp only [List.mem_singleton] at he
            exact ⟨_, _, _, he⟩
        · simp at he
      · exact ih _ _ (fun q hq => hall q (List.mem_cons_of_mem p hq)) he

theorem fallbackErrs_shape (cfg : ValidationConfig) (fs : FS) :
    ∀ e ∈ fallbackErrs cfg fs, ∃ c, e = fallbackMsg c := by
  intro e he
  unfold fallbackErrs at he
  split at he
  · split at he
    · simp at he
    · simp only [List.mem_singleton] at he
      exact ⟨_, he⟩
  · simp at he

theorem allowlistErrs_shape (cfg : ValidationConfig) (fs : FS) (st : ScanState) :
    ∀ e ∈ allowlistErrs cfg fs st,
      (∃ q, e = allowlistMissingMsg q) ∨ (∃ l, e = missingMsg l) := by
  intro e he
  unfold allowlistErrs at he
  split at he
  · simp at he
  · split at he
    · split at he
      · simp at he
      · simp only [List.mem_singleton] at he
        exact Or.inr ⟨_, he⟩
    · simp only [List.mem_singleton] at he
      exact Or.inl ⟨_, he⟩

/-- No error of a run that reaches the main checks starts with `pfx`
when `pfx` mismatches every error-message head literal. -/
theorem errors_not_sw (args : Args) (fs : FS) (pfx : String)
    (hE : fs.resourcesExists = true) (hD : fs.resourcesIsDir = true)
    (hP : (list_png_files fs.entries).isEmpty = false)
    (hinv : ∀ q r, strStartsWith pfx (invalidMsg q r) = false)
    (hdup : ∀ m x y, strStartsWith pfx (dupMsg m x y) = false)
    (hfb : ∀ c, strStartsWith pfx (fallbackMsg c) = false)
    (halm : ∀ q, strStartsWith pfx (allowlistMissingMsg q) = false)
    (hmiss : ∀ l, strStartsWith pfx (missingMsg l) = false) :
    ∀ e ∈ (runMain args fs).errors, strStartsWith pfx e = false := by
  intro e he
  rw [runMain_final args fs hE hD hP] at he
  dsimp only at he
  simp only [List.mem_append] at he
  rcases he with (he | he) | he
  · rw [scanFiles_errors] at he
    rcases errsAlong_shape (buildConfig args) (list_png_files fs.entries) _ e he with
      ⟨q, r, rfl⟩ | ⟨m, x, y, rfl⟩
    · exact hinv q r
    · exact hdup m x y
  · obtain ⟨c, rfl⟩ := fallbackErrs_shape (buildConfig args) fs e he
    exact hfb c
  · rcases allowlistErrs_shape (buildConfig args) fs _ e he with ⟨q, rfl⟩ | ⟨l, rfl⟩
    · exact halm q
    · exact hmiss l

/-! ## Claim C7: normalization warnings -/

/-- Claim C7: a file whose raw code differs from its normalized form
gets a warning advising the normalized name, never an error of that
kind, and the pattern validation of every file is applied to the
normalized code: a failing normalized code yields the invalid-filename
error for that file, and when every normalized code passes no
invalid-filename error at all is produced (whatever the raw codes
look like). -/
theorem claim7_normalized_warning (args : Args) (fs : FS) (p : String)
    (hE : fs.resourcesExists = true) (hD : fs.resourcesIsDir = true)
    (hp : p ∈ list_png_files fs.entries)
    (hraw : pyStem p ≠ normOf p) :
    nonNormMsg p (normOf p) ∈ (runMain args fs).warnings ∧
    (∀ e ∈ (runMain args fs).errors, strStartsWith nonNormPfxStr e = false) ∧
    ((validate_filename (normOf p) (buildConfig args)).1 = false →
      invalidMsg p (validate_filename (normOf p) (buildConfig args)).2 ∈
        (runMain args fs).errors) ∧
    ((∀ q ∈ list_png_files fs.entries,
        (validate_filename (normOf q) (buildConfig args)).1 = true) →
      ∀ e ∈ (runMain args fs).errors, strStartsWith invalidPfxStr e = false) := by
  have hPne : list_png_files fs.entries ≠ [] := List.ne_nil_of_mem hp
  have hP : (list_png_files fs.entries).isEmpty = false := by
    cases h : (list_png_files fs.entries).isEmpty
    · rfl
    · exact absurd (List.isEmpty_iff.mp h) hPne
  refine ⟨?_, ?_, ?_, ?_⟩
  · rw [runMain_final args fs hE hD hP]
    dsimp only
    rw [scanFiles_warnings]
    exact List.mem_append_left _ (mem_warnsAlong _ p hp hraw)
  · exact errors_not_sw args fs nonNormPfxStr hE hD hP
      (fun q r => nsw_invalidMsg nonNormPfxStr q r (by decide))
      (fun m x y => nsw_dupMsg nonNormPfxStr m x y (by decide))
      (fun c => nsw_fallbackMsg nonNormPfxStr c (by decide))
      (fun q => nsw_allowlistMissingMsg nonNormPfxStr q (by decide))
      (fun l => nsw_missingMsg nonNormPfxStr l (by decide))
  · intro hv
    rw [runMain_final args fs hE hD hP]
    dsimp only
    rw [scanFiles_errors]
    exact List.mem_append_left _
      (List.mem_append_left _ (mem_errsAlong_invalid (buildConfig args) _ p _ hp hv))
  · intro hall e he
    rw [runMain_final args fs hE hD hP] at he
    dsimp only at he
    simp only [List.mem_append] at he
    rcases he with (he | he) | he
    · rw [scanFiles_errors] at he
      obtain ⟨m, x, y, rfl⟩ :=
        errsAlong_dup_of_valid (buildConfig args) (list_png_files fs.entries) _ e hall he
      exact nsw_dupMsg invalidPfxStr m x y (by decide)
    · obtain ⟨c, rfl⟩ := fallbackErrs_shape (buildConfig args) fs e he
      exact nsw_fallbackMsg invalidPfxStr c (by decide)
    · rcases allowlistErrs_shape (buildConfig args) fs _ e he with ⟨q, rfl⟩ | ⟨l, rfl⟩
      · exact nsw_allowlistMissingMsg invalidPfxStr q (by decide)
      · exact nsw_missingMsg invalidPfxStr l (by decide)

theorem claim7_witness :
    nonNormMsg "Us.png" (normOf "Us.png") ∈
      (runMain ⟨"R", none, none, false, []⟩
        ⟨true, true, ["Us.png"], false, ""⟩).warnings :=
  (claim7_normalized_warning ⟨"R", none, none, false, []⟩
    ⟨true, true, ["Us.png"], false, ""⟩ "Us.png" rfl rfl (by decide) (by decide)).1


/-! ## Claim C8: allowlist errors, warnings and the 80-entry cap -/

theorem allowlistErrs_eq (cfg : ValidationConfig) (fs : FS) (st : ScanState) (ap : String)
    (hpath : cfg.allowlist_path = some ap) (hax : fs.allowlistExists = true) :
    allowlistErrs cfg fs st =
      if (missingOf fs st).isEmpty then [] else [missingMsg (missingOf fs st)] := by
  unfold allowlistErrs
  rw [hpath]
  simp [hax]

theorem allowlistWarns_eq (cfg : ValidationConfig) (fs : FS) (st : ScanState) (ap : String)
    (hpath : cfg.allowlist_path = some ap) (hax : fs.allowlistExists = true) :
    allowlistWarns cfg fs st =
      if (extraOf fs st).isEmpty then [] else [extraMsg (extraOf fs st)] := by
  unfold allowlistWarns
  rw [hpath]
  simp [hax]

/-- Claim C8: with a configured, readable allowlist, the required codes
without a discovered file are reported as one hard error carrying the
whole missing list (and no such error appears when nothing is missing);
the discovered codes outside the allowlist yield one warning and never
an error; the warning text lists at most 80 codes, with the and-N-more
suffix exactly when more than 80 are extra. -/
theorem claim8_allowlist_check (args : Args) (fs : FS) (ap : String)
    (hE : fs.resourcesExists = true) (hD : fs.resourcesIsDir = true)
    (hP : (list_png_files fs.entries).isEmpty = false)
    (hal : args.allowlist = some ap)
    (hax : fs.allowlistExists = true) :
    (missingOf fs (scanFiles (buildConfig args) (list_png_files fs.entries)) ≠ [] →
      missingMsg (missingOf fs (scanFiles (buildConfig args) (list_png_files fs.entries))) ∈
        (runMain args fs).errors) ∧
    (missingOf fs (scanFiles (buildConfig args) (list_png_files fs.entries)) = [] →
      ∀ e ∈ (runMain args fs).errors, strStartsWith missingPfxStr e = false) ∧
    (extraOf fs (scanFiles (buildConfig args) (list_png_files fs.entries)) ≠ [] →
      extraMsg (extraOf fs (scanFiles (buildConfig args) (list_png_files fs.entries))) ∈
        (runMain args fs).warnings) ∧
    (∀ e ∈ (runMain args fs).errors, strStartsWith extraPfxStr e = false) ∧
    (∀ extra : List String, extra.length ≤ 80 →
      extraMsg extra = extraPfxStr ++ String.intercalate "\n  - " extra) ∧
    (∀ extra : List String, 80 < extra.length →
      extraMsg extra = extraPfxStr ++
        (String.intercalate "\n  - " (extra.take 80) ++
          ("\n  ...and " ++ (toString (extra.length - 80) ++ " more")))) := by
  have hpath : (buildConfig args).allowlist_path = some ap := hal
  refine ⟨?_, ?_, ?_, ?_, ?_, ?_⟩
  · intro hm
    rw [runMain_final args fs hE hD hP]
    dsimp only
    refine List.mem_append_right _ ?_
    rw [allowlistErrs_eq (buildConfig args) fs _ ap hpath hax]
    have : (missingOf fs (scanFiles (buildConfig args) (list_png_files fs.entries))).isEmpty
        = false := by
      cases h : (missingOf fs (scanFiles (buildConfig args) (list_png_files fs.entries))).isEmpty
      · rfl
      · exact absurd (List.isEmpty_iff.mp h) hm
    rw [this]
    simp
  · intro hm e he
    rw [runMain_final args fs hE hD hP] at he
    dsimp only at he
    rw [allowlistErrs_eq (buildConfig args) fs _ ap hpath hax, hm] at he
    simp only [List.isEmpty_nil, if_true, List.append_nil, List.mem_append] at he
    rcases he with he | he
    · rw [scanFiles_errors] at he
      rcases errsAlong_shape (buildConfig args) (list_png_files fs.entries) _ e he with
        ⟨q, r, rfl⟩ | ⟨m, x, y, rfl⟩
      · exact nsw_invalidMsg missingPfxStr q r (by decide)
      · exact nsw_dupMsg missingPfxStr m x y (by decide)
    · obtain ⟨c, rfl⟩ := fallbackErrs_shape (buildConfig args) fs e he
      exact nsw_fallbackMsg missingPfxStr c (by decide)
  · intro hx
    rw [runMain_final args fs hE hD hP]
    dsimp only
    refine List.mem_append_right _ ?_
    rw [allowlistWarns_eq (buildConfig args) fs _ ap hpath hax]
    have : (extraOf fs (scanFiles (buildConfig args) (list_png_files fs.entries))).isEmpty
        = false := by
      cases h : (extraOf fs (scanFiles (buildConfig args) (list_png_files fs.entries))).isEmpty
      · rfl
      · exact absurd (List.isEmpty_iff.mp h) hx
    rw [this]
    simp
  · exact errors_not_sw args fs extraPfxStr hE hD hP
      (fun q r => nsw_invalidMsg extraPfxStr q r (by decide))
      (fun m x y => nsw_dupMsg extraPfxStr m x y (by decide))
      (fun c => nsw_fallbackMsg extraPfxStr c (by decide))
      (fun q => nsw_allowlistMissingMsg extraPfxStr q (by decide))
      (fun l => nsw_missingMsg extraPfxStr l (by decide))
  · intro extra h
    unfold extraMsg
    rw [if_pos h, List.take_of_length_le h, String.append_empty]
  · intro extra h
    unfold extraMsg
    rw [if_neg (by omega)]

theorem claim8_witness :
    missingMsg (missingOf ⟨true, true, ["us.png", "zz.png"], true, "us\ngb"⟩
        (scanFiles (buildConfig ⟨"R", some "al", none, false, []⟩)
          (list_png_files ["us.png", "zz.png"]))) ∈
      (runMain ⟨"R", some "al", none, false, []⟩
        ⟨true, true, ["us.png", "zz.png"], true, "us\ngb"⟩).errors :=
  (claim8_allowlist_check ⟨"R", some "al", none, false, []⟩
    ⟨true, true, ["us.png", "zz.png"], true, "us\ngb"⟩ "al"
    rfl rfl (by decide) rfl rfl).1 (by decide)

/-! ## Claim C9: the fallback requirement -/

/-- Claim C9: a configured fallback code (one that is nonempty after
normalization) joins the extra-allowed set trimmed and lower-cased, and
when the run reaches the main checks the fallback error is recorded
exactly when no file named that normalized code plus `.png` exists. -/
theorem claim9_fallback_requirement (args : Args) (fs : FS) (fb : String)
    (hfb : args.requireFallback = some fb)
    (hnn : pyStripLower fb ≠ "") :
    pyStripLower fb ∈ (buildConfig args).extra_allowed_codes ∧
    (fs.resourcesExists = true → fs.resourcesIsDir = true →
      (list_png_files fs.entries).isEmpty = false →
      ((fs.entries.contains (pyStripLower fb ++ ".png") = false →
          fallbackMsg (pyStripLower fb) ∈ (runMain args fs).errors) ∧
        (fs.entries.contains (pyStripLower fb ++ ".png") = true →
          ∀ e ∈ (runMain args fs).errors, strStartsWith fbPfxStr e = false))) := by
  have hfbne : fb ≠ "" := by
    intro h
    apply hnn
    rw [h]
    rfl
  have htr : pyTruthyStr args.requireFallback = true := by
    rw [hfb]
    simp [pyTruthyStr, hfbne]
  have hrf : (buildConfig args).require_fallback_code = some (pyStripLower fb) := by
    unfold buildConfig
    rw [htr]
    simp [hfb]
  have hfbe : fallbackErrs (buildConfig args) fs =
      if fs.entries.contains (pyStripLower fb ++ ".png") then []
      else [fallbackMsg (pyStripLower fb)] := by
    unfold fallbackErrs
    rw [hrf]
    have : pyTruthyStr (some (pyStripLower fb)) = true := by
      simp [pyTruthyStr, hnn]
    rw [this]
    simp
  constructor
  · unfold buildConfig
    rw [htr]
    simp only [if_true]
    refine List.mem_append_right _ ?_
    rw [hfb]
    simp
  · intro hE hD hP
    constructor
    · intro hc
      rw [runMain_final args fs hE hD hP]
      dsimp only
      refine List.mem_append_left _ (List.mem_append_right _ ?_)
      rw [hfbe, hc]
      simp
    · intro hc e he
      rw [runMain_final args fs hE hD hP] at he
      dsimp only at he
      rw [hfbe, hc] at he
      simp only [if_true, List.append_nil, List.mem_append] at he
      rcases he with he | he
      · rw [scanFiles_errors] at he
        rcases errsAlong_shape (buildConfig args) (list_png_files fs.entries) _ e he with
          ⟨q, r, rfl⟩ | ⟨m, x, y, rfl⟩
        · exact nsw_invalidMsg fbPfxStr q r (by decide)
        · exact nsw_dupMsg fbPfxStr m x y (by decide)
      · rcases allowlistErrs_shape (buildConfig args) fs _ e he with ⟨q, rfl⟩ | ⟨l, rfl⟩
        · exact nsw_allowlistMissingMsg fbPfxStr q (by decide)
        · exact nsw_missingMsg fbPfxStr l (by decide)

theorem claim9_witness :
    pyStripLower " XX " ∈
      (buildConfig ⟨"R", none, some " XX ", false, []⟩).extra_allowed_codes ∧
    fallbackMsg (pyStripLower " XX ") ∈
      (runMain ⟨"R", none, some " XX ", false, []⟩
        ⟨true, true, ["us.png"], false, ""⟩).errors :=
  ⟨(claim9_fallback_requirement ⟨"R", none, some " XX ", false, []⟩
      ⟨true, true, ["us.png"], false, ""⟩ " XX " rfl (by decide)).1,
    ((claim9_fallback_requirement ⟨"R", none, some " XX ", false, []⟩
      ⟨true, true, ["us.png"], false, ""⟩ " XX " rfl (by decide)).2
        rfl rfl (by decide)).1 (by decide)⟩


/-! ## Claim C10: the allowlist comparison is on normalized-code sets -/

theorem findFirst_isSome_of_mem (L : List String) (q c : String)
    (hq : q ∈ L) (hn : normOf q = c) : (findFirst c L).isSome = true := by
  induction L with
  | nil => simp at hq
  | cons p rest ih =>
      rcases List.mem_cons.mp hq with h | h
      · subst h
        simp [findFirst, hn]
      · by_cases hp : normOf p = c
        · simp [findFirst, hp]
        · simp [findFirst, hp, ih h]

theorem presentCodes_eq (st : ScanState) : presentCodes st = keysA st.seen := rfl

/-- Claim C10: the allowlist comparison is between normalized-code
sets: a required code matched by some discovered file (after
normalization) is never listed as missing, and the extras list carries
each normalized code at most once, however many raw files produced
it. -/
theorem claim10_normalized_sets (args : Args) (fs : FS) :
    (∀ c ∈ read_allowlist fs.allowlistText,
      (∃ q ∈ list_png_files fs.entries, normOf q = c) →
      c ∉ missingOf fs (scanFiles (buildConfig args) (list_png_files fs.entries))) ∧
    (∀ c : String,
      (extraOf fs (scanFiles (buildConfig args) (list_png_files fs.entries))).count c ≤ 1) := by
  have hkeys : (keysA (scanFiles (buildConfig args) (list_png_files fs.entries)).seen).Nodup := by
    rw [scanFiles_seen]
    exact nodup_keysA_seenAlong _ [] (by simp [keysA])
  constructor
  · rintro c hc ⟨q, hq, hnq⟩
    have hpres : c ∈ presentCodes (scanFiles (buildConfig args) (list_png_files fs.entries)) := by
      rw [presentCodes_eq]
      apply mem_keysA_of_isSome
      rw [scanFiles_seen, lookupA_seenAlong]
      dsimp only [lookupA]
      exact findFirst_isSome_of_mem _ q c hq hnq
    intro hmem
    unfold missingOf missingCodes at hmem
    rw [mem_sortByName] at hmem
    have h1 := (List.mem_filter.mp hmem).2
    rw [Bool.not_eq_true'] at h1
    have h2 : (presentCodes
        (scanFiles (buildConfig args) (list_png_files fs.entries))).contains c = true :=
      List.elem_iff.mpr hpres
    rw [h1] at h2
    exact Bool.false_ne_true h2
  · intro c
    apply List.nodup_iff_count_le_one.mp
    unfold extraOf extraCodes
    apply nodup_sortByName
    apply List.Nodup.filter
    rw [presentCodes_eq]
    exact hkeys

theorem claim10_witness :
    "us" ∉ missingOf ⟨true, true, ["US.png", "us.png"], true, "us"⟩
        (scanFiles (buildConfig ⟨"R", some "al", none, false, []⟩)
          (list_png_files ["US.png", "us.png"])) :=
  (claim10_normalized_sets ⟨"R", some "al", none, false, []⟩
    ⟨true, true, ["US.png", "us.png"], true, "us"⟩).1 "us" (by decide)
    ⟨"US.png", by decide, by decide⟩

end ValidateFlags
